import Mathlib

/-!
# Verification of the Splitmint core numeric routines

Shallow embedding of `backend/app/services/split_engine.py` and
`backend/app/services/debt_simplifier.py`.

Conventions of the embedding:

* All monetary values in the source are exact two-decimal `Decimal`s.  We
  represent them as integer numbers of cents (`ℤ`): the amount `10.00`
  becomes `1000`, the tolerance `0.01` becomes `1`.
* Percentages may carry arbitrary decimal precision, so they are represented
  as exact rationals (`ℚ`), with `100.00` becoming `(100 : ℚ)` and the
  `0.01` percentage tolerance becoming `1/100`.
* Python `Decimal.quantize(Decimal('0.01'), rounding=ROUND_HALF_EVEN)` on an
  exact quotient is round-half-to-even to a whole number of cents.  (Python
  divides at 28 significant digits before quantizing; for the two-decimal
  amounts and small divisors in scope the exact quotient is never close
  enough to a midpoint for that intermediate rounding to change the result,
  so we model the composition as exact rational division followed by
  half-even rounding.)
* `raise ValueError(...)` is modelled as `Except.error` carrying a member of
  the error taxonomy, one constructor per distinct validation failure.
* Python `dict` (insertion ordered, unique keys) is modelled as an
  association list `List (String × ℤ)`; `dict.get(k, 0)` is `getBal`,
  `d[k] = d.get(k, 0) + v` is `updateBal` (update in place, or append).
-/

/-- The `SplitType` enum of `split_engine.py`. -/
inductive SplitType where
  | equal
  | custom
  | percentage
deriving DecidableEq

/-- Error taxonomy for the split engine: one constructor per distinct
`ValueError` raised by `split_engine.py`. -/
inductive SplitError where
  /-- non-positive amount, non-positive participant count, empty list -/
  | invalidInput
  /-- custom amounts / percentages absent or mis-sized in `create_splits` -/
  | missingParameters
  /-- custom amounts do not sum to the total; carries the actual sum and
  the signed difference `amount - total` reported in the message -/
  | splitMismatch (total : ℤ) (difference : ℤ)
  /-- percentages do not sum to 100 within the 0.01 tolerance; carries the
  actual sum reported in the message -/
  | percentageMismatch (total : ℚ)
  /-- a supplied custom amount or percentage is negative -/
  | negativeAmount
deriving DecidableEq

/-- `(num / den).quantize(Decimal('0.01'), rounding=ROUND_HALF_EVEN)` for a
quotient expressed in cents: round `num / den` to the nearest integer,
ties to the even integer.  Only meaningful for `0 < den`. -/
def roundHalfEven (num den : ℤ) : ℤ :=
  if 2 * num.emod den < den then num.ediv den
  else if den < 2 * num.emod den then num.ediv den + 1
  else if num.ediv den % 2 = 0 then num.ediv den else num.ediv den + 1

/-- Round-half-to-even of an exact rational number of cents, used by
`split_percentage` for `(amount * pct / 100).quantize(...)`. -/
def roundHalfEvenQ (x : ℚ) : ℤ :=
  if x - ⌊x⌋ < 1/2 then ⌊x⌋
  else if (1:ℚ)/2 < x - ⌊x⌋ then ⌊x⌋ + 1
  else if ⌊x⌋ % 2 = 0 then ⌊x⌋ else ⌊x⌋ + 1

/-- `split_equal` from `split_engine.py` (amounts in cents).

The source computes `base`, fills `splits = [base] * n`, computes
`diff = amount - sum(splits)` and then adds `+0.01` (resp. `-0.01`) to the
first `abs(int(diff * 100))` entries; `diff` is an exact number of cents so
`abs(int(diff * 100)) = diff.natAbs`. -/
def split_equal (amount : ℤ) (n : ℕ) : Except SplitError (List ℤ) :=
  if n = 0 then .error .invalidInput
  else if amount ≤ 0 then .error .invalidInput
  else
    .ok ((List.range n).map fun i =>
      if i < (amount - n * roundHalfEven amount n).natAbs then
        roundHalfEven amount n +
          (if 0 < amount - n * roundHalfEven amount n then 1 else -1)
      else roundHalfEven amount n)

/-- `split_custom` from `split_engine.py` (amounts in cents).  The source
checks the exact sum first, then scans for a negative amount, then returns
the supplied list unchanged. -/
def split_custom (amount : ℤ) (custom_amounts : List ℤ) :
    Except SplitError (List ℤ) :=
  if custom_amounts.sum ≠ amount then
    .error (.splitMismatch custom_amounts.sum (amount - custom_amounts.sum))
  else if custom_amounts.any fun a => a < 0 then .error .negativeAmount
  else .ok custom_amounts

/-- The per-percentage rounded shares of `split_percentage`, before the
rounding-difference adjustment: `(amount * pct / 100).quantize(...)`. -/
def rawSplits (amount : ℤ) (percentages : List ℚ) : List ℤ :=
  percentages.map fun pct => roundHalfEvenQ ((amount : ℚ) * pct / 100)

/-- Python `max` over a list of cents (meaningful for nonempty lists). -/
def listMax : List ℤ → ℤ
  | [] => 0
  | [a] => a
  | a :: b :: l => max a (listMax (b :: l))

/-- Python `list.index`: index of the first occurrence of a value. -/
def idxOf : ℤ → List ℤ → ℕ
  | _, [] => 0
  | a, x :: l => if x = a then 0 else idxOf a l + 1

/-- `splits[i] += d` as a total list operation. -/
def addAt (l : List ℤ) (i : ℕ) (d : ℤ) : List ℤ :=
  l.set i (l.getD i 0 + d)

/-- `split_percentage` from `split_engine.py` (amount in cents, percentages
as exact rationals).  The source validates the percentage total, rounds
each share half-even, and when `diff = amount - sum(splits)` is nonzero adds
the whole difference to `splits[splits.index(max(splits))]`.  The negativity
check happens inside the share-computing loop in the source; with an
`Except` result this is equivalent to rejecting first when any percentage is
negative, since the loop raises before anything is returned. -/
def split_percentage (amount : ℤ) (percentages : List ℚ) :
    Except SplitError (List ℤ) :=
  if |percentages.sum - 100| > 1/100 then
    .error (.percentageMismatch percentages.sum)
  else if percentages.any fun p => p < 0 then .error .negativeAmount
  else if amount - (rawSplits amount percentages).sum = 0 then
    .ok (rawSplits amount percentages)
  else
    .ok (addAt (rawSplits amount percentages)
      (idxOf (listMax (rawSplits amount percentages)) (rawSplits amount percentages))
      (amount - (rawSplits amount percentages).sum))

/-- `create_splits` from `split_engine.py`: dispatch over the split type,
returning the `dict(zip(participant_ids, split_amounts))` as an ordered
association list.  Python's `if not custom_amounts or len(custom_amounts)
!= num_participants` treats `None` and a mis-sized (including empty) list
alike; the same for percentages. -/
def create_splits (amount : ℤ) (split_type : SplitType)
    (participant_ids : List String) (custom_amounts : Option (List ℤ))
    (percentages : Option (List ℚ)) : Except SplitError (List (String × ℤ)) :=
  if participant_ids.length = 0 then .error .invalidInput
  else
    match split_type with
    | .equal =>
        (split_equal amount participant_ids.length).map (participant_ids.zip ·)
    | .custom =>
        match custom_amounts with
        | none => .error .missingParameters
        | some ca =>
            if ca.length ≠ participant_ids.length then .error .missingParameters
            else (split_custom amount ca).map (participant_ids.zip ·)
    | .percentage =>
        match percentages with
        | none => .error .missingParameters
        | some ps =>
            if ps.length ≠ participant_ids.length then .error .missingParameters
            else (split_percentage amount ps).map (participant_ids.zip ·)

/-- Sum of the amounts of a successful split result. -/
def resultSum (r : Except SplitError (List ℤ)) : Option ℤ :=
  r.toOption.map List.sum

/-- Number of shares of a successful split result. -/
def resultLen (r : Except SplitError (List ℤ)) : Option ℕ :=
  r.toOption.map List.length

/-- Stable insertion of an entry into a list sorted descending by amount:
the entry goes in front of the first element whose amount is `≤` its own,
so it lands after every strictly larger amount and before every equal one. -/
def insertDesc (x : String × ℤ) : List (String × ℤ) → List (String × ℤ)
  | [] => [x]
  | y :: ys => if y.2 ≤ x.2 then x :: y :: ys else y :: insertDesc x ys

/-- Stable sort, descending by amount.  `debtors.sort(key=lambda x: x[1],
reverse=True)` in the source is Python's stable sort with a reversed key
order; a stable sort is determined uniquely by the key order, so stable
insertion sort is the same function on lists. -/
def sortDesc : List (String × ℤ) → List (String × ℤ)
  | [] => []
  | x :: xs => insertDesc x (sortDesc xs)

/-- The two-pointer `while` loop of `simplify_debts`.  The pointed-at
debtor/creditor is the list head and `current_debt` / `current_credit`
is stored as the head's amount.  Each iteration emits
`(debtor, creditor, min current_debt current_credit)` and advances a
pointer whose residual fell below `0.01` (one cent).  Because the settled
amount is the minimum of the two residuals, at least one residual becomes
`0 < 1` each iteration, so in the branch where the debtor keeps a residual
`≥ 1` the creditor necessarily advances (mirroring the source, where the
two advance checks run independently). -/
def settle : List (String × ℤ) → List (String × ℤ) → List (String × String × ℤ)
  | [], _ => []
  | _ :: _, [] => []
  | (d, cd) :: ds, (c, cc) :: cs =>
      (d, c, min cd cc) ::
        (if cd - min cd cc < 1 then
          if cc - min cd cc < 1 then settle ds cs
          else settle ds ((c, cc - min cd cc) :: cs)
        else settle ((d, cd - min cd cc) :: ds) cs)
termination_by ds cs => ds.length + cs.length
decreasing_by all_goals (simp only [List.length_cons]; omega)

/-- `simplify_debts` from `debt_simplifier.py` (balances in cents, the
`0.01` tolerance is one cent): partition into debtors
(`balance < -0.01`, magnitude `abs(balance)`) and creditors
(`balance > 0.01`), stable-sort both descending by amount, then run the
two-pointer settlement loop. -/
def simplify_debts (balances : List (String × ℤ)) :
    List (String × String × ℤ) :=
  settle
    (sortDesc ((balances.filter fun q => q.2 < -1).map fun q => (q.1, |q.2|)))
    (sortDesc ((balances.filter fun q => q.2 > 1).map fun q => (q.1, q.2)))

/-- `balances.get(user, 0)`: dictionary lookup with default `0`. -/
def getBal : List (String × ℤ) → String → ℤ
  | [], _ => 0
  | q :: rest, p => if q.1 = p then q.2 else getBal rest p

/-- `balances[user] = balances.get(user, 0) + d`: update the existing entry
in place, or append a fresh entry (Python dicts are insertion ordered). -/
def updateBal : List (String × ℤ) → String → ℤ → List (String × ℤ)
  | [], k, d => [(k, d)]
  | q :: rest, k, d =>
      if q.1 = k then (q.1, q.2 + d) :: rest else q :: updateBal rest k d

/-- An expense record as consumed by `calculate_group_balances`:
`paid_by`, `amount`, and the `(user_id, amount)` split lines. -/
structure Expense where
  paid_by : String
  amount : ℤ
  splits : List (String × ℤ)

/-- A settlement record as consumed by `calculate_group_balances`. -/
structure Settlement where
  paid_by : String
  paid_to : String
  amount : ℤ

/-- Processing of one expense inside `calculate_group_balances`: credit the
payer with the full amount, then debit each split participant. -/
def applyExpense (m : List (String × ℤ)) (e : Expense) : List (String × ℤ) :=
  e.splits.foldl (fun acc s => updateBal acc s.1 (-s.2))
    (updateBal m e.paid_by e.amount)

/-- Processing of one settlement inside `calculate_group_balances`: debit
the payer, credit the receiver. -/
def applySettlement (m : List (String × ℤ)) (s : Settlement) :
    List (String × ℤ) :=
  updateBal (updateBal m s.paid_by (-s.amount)) s.paid_to s.amount

/-- `calculate_group_balances` from `debt_simplifier.py`: fold the expenses
and then the settlements over the empty balance dictionary. -/
def calculate_group_balances (expenses : List Expense)
    (settlements : List Settlement) : List (String × ℤ) :=
  settlements.foldl applySettlement (expenses.foldl applyExpense [])

/-- `sum(balances.values())`. -/
def valsSum (m : List (String × ℤ)) : ℤ := (m.map fun q => q.2).sum

/-- `verify_zero_sum` from `debt_simplifier.py` (default tolerance `0.01`,
i.e. one cent). -/
def verify_zero_sum (balances : List (String × ℤ)) (tolerance : ℤ) : Bool :=
  |valsSum balances| ≤ tolerance

/-- Apply a list of settlement instructions to a balance map: add each
instruction's amount to the `from` participant's balance and subtract it
from the `to` participant's balance. -/
def applyInstructions (m : List (String × ℤ))
    (ts : List (String × String × ℤ)) : List (String × ℤ) :=
  ts.foldl (fun acc t => updateBal (updateBal acc t.1 t.2.2) t.2.1 (-t.2.2)) m

/-- Total amount a participant sends as the `from` side of instructions. -/
def fromSum (p : String) (ts : List (String × String × ℤ)) : ℤ :=
  (ts.map fun t => if t.1 = p then t.2.2 else 0).sum

/-- Total amount a participant receives as the `to` side of instructions. -/
def toSum (p : String) (ts : List (String × String × ℤ)) : ℤ :=
  (ts.map fun t => if t.2.1 = p then t.2.2 else 0).sum

/-- Total amount attached to a participant's entries in a debtor or
creditor list. -/
def entrySum (p : String) (l : List (String × ℤ)) : ℤ :=
  (l.map fun x => if x.1 = p then x.2 else 0).sum


/-! ## Helper lemmas: equal split arithmetic -/

/-- The rounding difference of `split_equal` is at most `n` cents in
absolute value (it is in fact at most `n/2`): the half-even rounded base
share differs from the exact share by at most half a cent. -/
lemma split_equal_diff_bound (A : ℤ) (n : ℕ) (hn : 0 < n) :
    (A - n * roundHalfEven A n).natAbs ≤ n := by
  have hden : (0:ℤ) < (n:ℤ) := by exact_mod_cast hn
  have h1 : 0 ≤ A.emod (n:ℤ) := Int.emod_nonneg A (by omega)
  have h2 : A.emod (n:ℤ) < n := Int.emod_lt_of_pos A hden
  have h3 : (n:ℤ) * A.ediv (n:ℤ) + A.emod (n:ℤ) = A := Int.ediv_add_emod A n
  unfold roundHalfEven
  split_ifs <;> (ring_nf; ring_nf at h3; omega)

/-- Summing `n` copies of `b`, the first `k` of them bumped by `a`. -/
lemma sum_range_if (n k : ℕ) (b a : ℤ) :
    (((List.range n).map fun i => if i < k then b + a else b).sum) =
      n * b + (min k n : ℕ) * a := by
  induction n with
  | zero => simp
  | succ n ih =>
      rw [List.range_succ, List.map_append, List.sum_append]
      by_cases h : n < k
      · have h1 : min k n = n := by omega
        have h2 : min k (n + 1) = n + 1 := by omega
        rw [ih, h1, h2]
        simp only [List.map_cons, List.map_nil, List.sum_cons, List.sum_nil,
          if_pos h]
        push_cast
        ring
      · have h1 : min k n = k := by omega
        have h2 : min k (n + 1) = k := by omega
        rw [ih, h1, h2]
        simp only [List.map_cons, List.map_nil, List.sum_cons, List.sum_nil,
          if_neg h]
        push_cast
        ring

/-! ## Claims about the split engine -/

/-- C1: for every positive two-decimal amount `A` (a positive number of
cents) and every participant count `n` with `1 ≤ n ≤ 100`, `split_equal`
returns a list of `n` amounts summing exactly to `A`. -/
theorem claim1_split_equal_exact (A : ℤ) (n : ℕ) (hA : 0 < A) (hn : 1 ≤ n)
    (hcap : n ≤ 100) :
    resultSum (split_equal A n) = some A ∧
      resultLen (split_equal A n) = some n := by
  have hn0 : n ≠ 0 := by omega
  have hA0 : ¬ A ≤ 0 := by omega
  have hk := split_equal_diff_bound A n (by omega)
  unfold split_equal
  rw [if_neg hn0, if_neg hA0]
  unfold resultSum resultLen
  simp only [Except.toOption, Option.map, List.length_map, List.length_range,
    and_true, Option.some.injEq]
  rw [sum_range_if]
  have hmin : min (A - n * roundHalfEven A n).natAbs n =
      (A - n * roundHalfEven A n).natAbs := by omega
  rw [hmin]
  by_cases hd : 0 < A - n * roundHalfEven A n
  · rw [if_pos hd]
    omega
  · rw [if_neg hd]
    omega

/-- Witness for C1 at `A = 10.00`, `n = 3`. -/
theorem claim1_witness :
    resultSum (split_equal 1000 3) = some 1000 ∧
      resultLen (split_equal 1000 3) = some 3 :=
  claim1_split_equal_exact 1000 3 (by decide) (by decide) (by decide)

/-- C7: `split_equal(10.00, 3)` returns exactly `[3.34, 3.33, 3.33]`; the
base share is `round_half_to_even(10.00 / 3) = 3.33` and the one-cent
remainder goes to the first participant. -/
theorem claim7_split_equal_ten_three :
    split_equal 1000 3 = .ok [334, 333, 333] ∧
      roundHalfEven 1000 3 = 333 :=
  ⟨rfl, rfl⟩

/-! ## Helper lemmas: percentage split -/

lemma listMax_mem : ∀ (l : List ℤ), l ≠ [] → listMax l ∈ l := by
  intro l
  induction l with
  | nil => simp
  | cons a t ih =>
      cases t with
      | nil => intro _; simp [listMax]
      | cons b u =>
          intro _
          show listMax (a :: b :: u) ∈ a :: b :: u
          rw [listMax]
          rcases le_total a (listMax (b :: u)) with h | h
          · rw [max_eq_right h]
            exact List.mem_cons_of_mem a (ih (by simp))
          · rw [max_eq_left h]
            exact List.mem_cons_self a _

lemma le_listMax : ∀ (l : List ℤ), ∀ x ∈ l, x ≤ listMax l := by
  intro l
  induction l with
  | nil => simp
  | cons a t ih =>
      cases t with
      | nil => intro x hx; simp at hx; simp [listMax, hx]
      | cons b u =>
          intro x hx
          show x ≤ listMax (a :: b :: u)
          rw [listMax]
          rcases List.mem_cons.mp hx with rfl | hx
          · exact le_max_left _ _
          · exact le_trans (ih x hx) (le_max_right _ _)

lemma idxOf_lt_length {a : ℤ} : ∀ {l : List ℤ}, a ∈ l → idxOf a l < l.length := by
  intro l
  induction l with
  | nil => simp
  | cons x t ih =>
      intro hmem
      rw [idxOf]
      by_cases hxa : x = a
      · rw [if_pos hxa]; simp
      · rw [if_neg hxa]
        have : a ∈ t := by
          rcases List.mem_cons.mp hmem with rfl | h
          · exact absurd rfl hxa
          · exact h
        simpa using ih this

lemma getD_idxOf {a : ℤ} : ∀ {l : List ℤ}, a ∈ l → l.getD (idxOf a l) 0 = a := by
  intro l
  induction l with
  | nil => simp
  | cons x t ih =>
      intro hmem
      rw [idxOf]
      by_cases hxa : x = a
      · rw [if_pos hxa]; simpa using hxa
      · rw [if_neg hxa]
        have : a ∈ t := by
          rcases List.mem_cons.mp hmem with rfl | h
          · exact absurd rfl hxa
          · exact h
        simpa using ih this

lemma getD_ne_of_lt_idxOf {a : ℤ} :
    ∀ {l : List ℤ} {j : ℕ}, j < idxOf a l → l.getD j 0 ≠ a := by
  intro l
  induction l with
  | nil => intro j h; rw [idxOf] at h; omega
  | cons x t ih =>
      intro j h
      rw [idxOf] at h
      by_cases hxa : x = a
      · rw [if_pos hxa] at h; omega
      · rw [if_neg hxa] at h
        cases j with
        | zero => simpa using hxa
        | succ j => exact ih (by omega)

lemma addAt_sum : ∀ (l : List ℤ) (i : ℕ) (d : ℤ), i < l.length →
    (addAt l i d).sum = l.sum + d := by
  intro l
  induction l with
  | nil => simp
  | cons x t ih =>
      intro i d hi
      cases i with
      | zero => simp [addAt]; ring
      | succ i =>
          have h2 := ih i d (by simpa using hi)
          unfold addAt at h2 ⊢
          rw [List.getD_cons_succ, List.set_cons_succ, List.sum_cons,
            List.sum_cons, h2]
          ring

lemma set_getD_self : ∀ (l : List ℤ) (i : ℕ), l.set i (l.getD i 0) = l := by
  intro l
  induction l with
  | nil => simp
  | cons x t ih =>
      intro i
      cases i with
      | zero => simp
      | succ i => simpa using ih i

/-- C5: whenever `split_percentage` succeeds, the returned amounts sum
exactly to the amount, and the result is the list of half-even rounded
shares with the whole rounding difference added at an index holding the
maximum share, no earlier index holding that value. -/
theorem claim5_split_percentage_exact (A : ℤ) (ps : List ℚ) (l : List ℤ)
    (h : split_percentage A ps = .ok l) :
    l.sum = A ∧
      ∃ i, i < (rawSplits A ps).length ∧
        (∀ j, j < (rawSplits A ps).length →
          (rawSplits A ps).getD j 0 ≤ (rawSplits A ps).getD i 0) ∧
        (∀ j, j < i → (rawSplits A ps).getD j 0 ≠ (rawSplits A ps).getD i 0) ∧
        l = addAt (rawSplits A ps) i (A - (rawSplits A ps).sum) := by
  unfold split_percentage at h
  split_ifs at h with h1 h2 h3
  case pos =>
    have hps : ps ≠ [] := by
      rintro rfl
      simp only [List.sum_nil] at h1
      norm_num at h1
    have hraw : rawSplits A ps ≠ [] := by
      unfold rawSplits
      simpa using hps
    have hMmem := listMax_mem (rawSplits A ps) hraw
    have hi : idxOf (listMax (rawSplits A ps)) (rawSplits A ps) <
        (rawSplits A ps).length := idxOf_lt_length hMmem
    have hgetD : (rawSplits A ps).getD
        (idxOf (listMax (rawSplits A ps)) (rawSplits A ps)) 0 =
        listMax (rawSplits A ps) := getD_idxOf hMmem
    have hok : rawSplits A ps = l := by simpa using h
    refine ⟨?_, idxOf (listMax (rawSplits A ps)) (rawSplits A ps), hi, ?_, ?_, ?_⟩
    · rw [← hok]; omega
    · intro j hj
      rw [hgetD]
      have : (rawSplits A ps).getD j 0 ∈ rawSplits A ps := by
        rw [List.getD_eq_getElem _ _ hj]
        exact List.getElem_mem hj
      exact le_listMax _ _ this
    · intro j hj
      rw [hgetD]
      exact getD_ne_of_lt_idxOf hj
    · rw [← hok, h3]
      unfold addAt
      rw [add_zero, set_getD_self]
  case neg =>
    have hps : ps ≠ [] := by
      rintro rfl
      simp only [List.sum_nil] at h1
      norm_num at h1
    have hraw : rawSplits A ps ≠ [] := by
      unfold rawSplits
      simpa using hps
    have hMmem := listMax_mem (rawSplits A ps) hraw
    have hi : idxOf (listMax (rawSplits A ps)) (rawSplits A ps) <
        (rawSplits A ps).length := idxOf_lt_length hMmem
    have hgetD : (rawSplits A ps).getD
        (idxOf (listMax (rawSplits A ps)) (rawSplits A ps)) 0 =
        listMax (rawSplits A ps) := getD_idxOf hMmem
    have hok : addAt (rawSplits A ps)
        (idxOf (listMax (rawSplits A ps)) (rawSplits A ps))
        (A - (rawSplits A ps).sum) = l := by simpa using h
    refine ⟨?_, idxOf (listMax (rawSplits A ps)) (rawSplits A ps), hi, ?_, ?_, ?_⟩
    · rw [← hok, addAt_sum _ _ _ hi]; ring
    · intro j hj
      rw [hgetD]
      have : (rawSplits A ps).getD j 0 ∈ rawSplits A ps := by
        rw [List.getD_eq_getElem _ _ hj]
        exact List.getElem_mem hj
      exact le_listMax _ _ this
    · intro j hj
      rw [hgetD]
      exact getD_ne_of_lt_idxOf hj
    · rw [hok]

/-- Witness for C5 at `split_percentage(100.00, [50, 30, 20])`. -/
theorem claim5_witness :
    ([5000, 3000, 2000] : List ℤ).sum = 10000 ∧
      ∃ i, i < (rawSplits 10000 [50, 30, 20]).length ∧
        (∀ j, j < (rawSplits 10000 [50, 30, 20]).length →
          (rawSplits 10000 [50, 30, 20]).getD j 0 ≤
            (rawSplits 10000 [50, 30, 20]).getD i 0) ∧
        (∀ j, j < i → (rawSplits 10000 [50, 30, 20]).getD j 0 ≠
          (rawSplits 10000 [50, 30, 20]).getD i 0) ∧
        ([5000, 3000, 2000] : List ℤ) = addAt (rawSplits 10000 [50, 30, 20]) i
          (10000 - (rawSplits 10000 [50, 30, 20]).sum) :=
  claim5_split_percentage_exact 10000 [50, 30, 20] [5000, 3000, 2000]
    (by norm_num [split_percentage, rawSplits, roundHalfEvenQ, addAt, idxOf, listMax])

/-- C6: `split_custom` fails with `SplitMismatch` carrying the actual sum
and the signed difference exactly when the amounts do not sum exactly to
the total; it fails with `NegativeAmount` when the sum is exact but some
amount is negative; otherwise it returns the amounts unchanged.  The final
conjunct is the spec's concrete case `split_custom(100.00,
[50.00, 30.00, 15.00])` reporting sum `95.00`, difference `5.00`. -/
theorem claim6_split_custom (A : ℤ) (ca : List ℤ) :
    (ca.sum ≠ A →
      split_custom A ca = .error (.splitMismatch ca.sum (A - ca.sum))) ∧
    (ca.sum = A → (∃ a ∈ ca, a < 0) →
      split_custom A ca = .error .negativeAmount) ∧
    (ca.sum = A → (∀ a ∈ ca, 0 ≤ a) → split_custom A ca = .ok ca) ∧
    split_custom 10000 [5000, 3000, 1500] = .error (.splitMismatch 9500 500) := by
  refine ⟨?_, ?_, ?_, rfl⟩
  · intro hne
    unfold split_custom
    rw [if_pos hne]
  · intro heq hneg
    unfold split_custom
    rw [if_neg (by simp [heq])]
    have hany : (ca.any fun a => a < 0) = true := by
      rcases hneg with ⟨a, ha, halt⟩
      exact List.any_eq_true.mpr ⟨a, ha, by simpa using halt⟩
    simp [hany]
  · intro heq hpos
    unfold split_custom
    rw [if_neg (by simp [heq])]
    have hany : (ca.any fun a => a < 0) = false := by
      rw [List.any_eq_false]
      intro a ha
      simpa using hpos a ha
    simp [hany]

/-- Witness for C6 at a valid custom split. -/
theorem claim6_witness :
    split_custom 10000 [6000, 4000] = .ok [6000, 4000] :=
  (claim6_split_custom 10000 [6000, 4000]).2.2.1 (by decide)
    (by intro a ha; fin_cases ha <;> decide)

/-- C4 is refuted at a concrete input: a zero total amount under the
`Custom` policy succeeds (the source validates amount positivity only in
`split_equal`), returning an allocation instead of `InvalidInput`. -/
theorem claim4_counterexample :
    create_splits 0 .custom ["a"] (some [0]) none = .ok [("a", 0)] := by rfl

/-- C4 amended: only the `Equal` policy rejects a non-positive amount with
`InvalidInput`; under `Custom` and `Percentage` the dispatch performs no
amount-positivity check, and zero or negative amounts can succeed. -/
theorem claim4_amended :
    (∀ (A : ℤ) (ids : List String) (ca : Option (List ℤ))
        (ps : Option (List ℚ)), A ≤ 0 → ids ≠ [] →
      create_splits A .equal ids ca ps = .error .invalidInput) ∧
    create_splits 0 .custom ["a", "b"] (some [0, 0]) none =
      .ok [("a", 0), ("b", 0)] ∧
    create_splits (-500) .percentage ["a", "b"] none (some [50, 50]) =
      .ok [("a", -250), ("b", -250)] := by
  refine ⟨?_, rfl, ?_⟩
  · intro A ids ca ps hA hne
    unfold create_splits
    rw [if_neg (by simpa using hne)]
    unfold split_equal
    rw [if_neg (by simpa using hne), if_pos hA]
    rfl
  · have hf : Int.fract ((-250 : ℚ)) < 1/2 := by norm_num [Int.fract]
    norm_num [create_splits, split_percentage, rawSplits, roundHalfEvenQ,
      addAt, idxOf, listMax, hf]
    rfl

/-- Witness for C4 (amended) at amount `-5.00` under the `Equal` policy. -/
theorem claim4_witness :
    create_splits (-500) .equal ["a", "b"] none none = .error .invalidInput :=
  claim4_amended.1 (-500) ["a", "b"] none none (by decide) (by decide)

/-! ## Helper lemmas: balance aggregation -/

lemma valsSum_updateBal : ∀ (m : List (String × ℤ)) (k : String) (d : ℤ),
    valsSum (updateBal m k d) = valsSum m + d := by
  intro m k d
  induction m with
  | nil => simp [updateBal, valsSum]
  | cons q rest ih =>
      rw [updateBal]
      by_cases h : q.1 = k
      · rw [if_pos h]
        simp only [valsSum, List.map_cons, List.sum_cons]
        ring
      · rw [if_neg h]
        simp only [valsSum, List.map_cons, List.sum_cons] at ih ⊢
        omega

lemma valsSum_debit_splits : ∀ (sp : List (String × ℤ)) (m : List (String × ℤ)),
    valsSum (sp.foldl (fun acc s => updateBal acc s.1 (-s.2)) m) =
      valsSum m - (sp.map fun s => s.2).sum := by
  intro sp
  induction sp with
  | nil => simp
  | cons s t ih =>
      intro m
      rw [List.foldl_cons, ih, valsSum_updateBal]
      simp only [List.map_cons, List.sum_cons]
      ring

lemma valsSum_applyExpense (m : List (String × ℤ)) (e : Expense)
    (h : (e.splits.map fun s => s.2).sum = e.amount) :
    valsSum (applyExpense m e) = valsSum m := by
  unfold applyExpense
  rw [valsSum_debit_splits, valsSum_updateBal, h]
  ring

lemma valsSum_fold_expenses : ∀ (es : List Expense) (m : List (String × ℤ)),
    (∀ e ∈ es, (e.splits.map fun s => s.2).sum = e.amount) →
    valsSum (es.foldl applyExpense m) = valsSum m := by
  intro es
  induction es with
  | nil => simp
  | cons e t ih =>
      intro m h
      rw [List.foldl_cons, ih _ fun x hx => h x (List.mem_cons_of_mem e hx),
        valsSum_applyExpense _ _ (h e (List.mem_cons_self e t))]

lemma valsSum_applySettlement (m : List (String × ℤ)) (s : Settlement) :
    valsSum (applySettlement m s) = valsSum m := by
  unfold applySettlement
  rw [valsSum_updateBal, valsSum_updateBal]
  ring

lemma valsSum_fold_settlements : ∀ (ss : List Settlement)
    (m : List (String × ℤ)), valsSum (ss.foldl applySettlement m) = valsSum m := by
  intro ss
  induction ss with
  | nil => simp
  | cons s t ih =>
      intro m
      rw [List.foldl_cons, ih, valsSum_applySettlement]

/-- C2: if every expense's split lines sum exactly to its amount, the
balances produced by `calculate_group_balances` (for any settlements) sum
exactly to zero, so `verify_zero_sum` at the default tolerance `0.01`
returns true. -/
theorem claim2_zero_sum (expenses : List Expense)
    (settlements : List Settlement)
    (h : ∀ e ∈ expenses, (e.splits.map fun s => s.2).sum = e.amount) :
    valsSum (calculate_group_balances expenses settlements) = 0 ∧
      verify_zero_sum (calculate_group_balances expenses settlements) 1 = true := by
  have hz : valsSum (calculate_group_balances expenses settlements) = 0 := by
    unfold calculate_group_balances
    rw [valsSum_fold_settlements, valsSum_fold_expenses _ _ h]
    simp [valsSum]
  refine ⟨hz, ?_⟩
  simp [verify_zero_sum, hz]

/-- Witness for C2: one expense (alice paid 100.00, split 50.00/50.00) and
one settlement (bob paid alice 25.00). -/
theorem claim2_witness :
    valsSum (calculate_group_balances
        [⟨"alice", 10000, [("alice", 5000), ("bob", 5000)]⟩]
        [⟨"bob", "alice", 2500⟩]) = 0 ∧
      verify_zero_sum (calculate_group_balances
        [⟨"alice", 10000, [("alice", 5000), ("bob", 5000)]⟩]
        [⟨"bob", "alice", 2500⟩]) 1 = true :=
  claim2_zero_sum _ _ (by
    intro e he
    rw [List.mem_singleton] at he
    subst he
    rfl)

/-! ## Helper lemmas: the settlement loop -/

lemma sum_nonneg_entries : ∀ (l : List (String × ℤ)),
    (∀ x ∈ l, (1:ℤ) ≤ x.2) → 0 ≤ (l.map fun x => x.2).sum := by
  intro l
  induction l with
  | nil => simp
  | cons x t ih =>
      intro h
      simp only [List.map_cons, List.sum_cons]
      have h1 := h x (List.mem_cons_self x t)
      have h2 := ih fun y hy => h y (List.mem_cons_of_mem x hy)
      omega

lemma entries_nil : ∀ (l : List (String × ℤ)),
    (∀ x ∈ l, (1:ℤ) ≤ x.2) → (l.map fun x => x.2).sum ≤ 0 → l = [] := by
  intro l
  cases l with
  | nil => intro _ _; rfl
  | cons x t =>
      intro h hsum
      exfalso
      simp only [List.map_cons, List.sum_cons] at hsum
      have h1 := h x (List.mem_cons_self x t)
      have h2 := sum_nonneg_entries t fun y hy => h y (List.mem_cons_of_mem x hy)
      omega

lemma settle_names : ∀ (ds cs : List (String × ℤ)),
    ∀ t ∈ settle ds cs,
      (∃ x ∈ ds, t.1 = x.1) ∧ (∃ x ∈ cs, t.2.1 = x.1) := by
  intro ds cs
  induction ds, cs using settle.induct with
  | case1 cs => simp [settle]
  | case2 x ds => simp [settle]
  | case3 d cd ds c cc cs ih1 ih2 ih3 =>
      intro t ht
      rw [settle] at ht
      by_cases h1 : cd - min cd cc < 1
      · by_cases h2 : cc - min cd cc < 1
        · rw [if_pos h1, if_pos h2] at ht
          rcases List.mem_cons.mp ht with rfl | ht
          · exact ⟨⟨(d, cd), by simp, rfl⟩, ⟨(c, cc), by simp, rfl⟩⟩
          · obtain ⟨⟨x, hx, hx1⟩, ⟨y, hy, hy1⟩⟩ := ih1 t ht
            exact ⟨⟨x, List.mem_cons_of_mem _ hx, hx1⟩,
              ⟨y, List.mem_cons_of_mem _ hy, hy1⟩⟩
        · rw [if_pos h1, if_neg h2] at ht
          rcases List.mem_cons.mp ht with rfl | ht
          · exact ⟨⟨(d, cd), by simp, rfl⟩, ⟨(c, cc), by simp, rfl⟩⟩
          · obtain ⟨⟨x, hx, hx1⟩, ⟨y, hy, hy1⟩⟩ := ih2 t ht
            refine ⟨⟨x, List.mem_cons_of_mem _ hx, hx1⟩, ?_⟩
            rcases List.mem_cons.mp hy with rfl | hy
            · exact ⟨(c, cc), by simp, hy1⟩
            · exact ⟨y, List.mem_cons_of_mem _ hy, hy1⟩
      · rw [if_neg h1] at ht
        rcases List.mem_cons.mp ht with rfl | ht
        · exact ⟨⟨(d, cd), by simp, rfl⟩, ⟨(c, cc), by simp, rfl⟩⟩
        · obtain ⟨⟨x, hx, hx1⟩, ⟨y, hy, hy1⟩⟩ := ih3 t ht
          refine ⟨?_, ⟨y, List.mem_cons_of_mem _ hy, hy1⟩⟩
          rcases List.mem_cons.mp hx with rfl | hx
          · exact ⟨(d, cd), by simp, hx1⟩
          · exact ⟨x, List.mem_cons_of_mem _ hx, hx1⟩

/-- Core accounting lemma for the two-pointer loop: when every debtor and
creditor magnitude is at least one cent and the two sides have equal
totals, the loop settles every entry in full — each participant sends
exactly the total of their debtor entries and receives exactly the total
of their creditor entries. -/
lemma settle_exhaust : ∀ (ds cs : List (String × ℤ)),
    (∀ x ∈ ds, (1:ℤ) ≤ x.2) → (∀ x ∈ cs, (1:ℤ) ≤ x.2) →
    (ds.map fun x => x.2).sum = (cs.map fun x => x.2).sum →
    ∀ p, fromSum p (settle ds cs) = entrySum p ds ∧
      toSum p (settle ds cs) = entrySum p cs := by
  intro ds cs
  induction ds, cs using settle.induct with
  | case1 cs =>
      intro _ hc hbal p
      have hnil : cs = [] := entries_nil cs hc (by
        rw [← hbal]; simp)
      subst hnil
      simp [settle, fromSum, toSum, entrySum]
  | case2 x ds =>
      intro hd _ hbal p
      exfalso
      simp only [List.map_cons, List.sum_cons, List.map_nil, List.sum_nil]
        at hbal
      have h1 := hd x (List.mem_cons_self x ds)
      have h2 := sum_nonneg_entries ds fun y hy =>
        hd y (List.mem_cons_of_mem x hy)
      omega
  | case3 d cd ds c cc cs ih1 ih2 ih3 =>
      intro hd hc hbal p
      simp only [List.map_cons, List.sum_cons] at hbal
      have hcd : (1:ℤ) ≤ cd := hd (d, cd) (List.mem_cons_self _ _)
      have hcc : (1:ℤ) ≤ cc := hc (c, cc) (List.mem_cons_self _ _)
      have hds : ∀ x ∈ ds, (1:ℤ) ≤ x.2 := fun x hx =>
        hd x (List.mem_cons_of_mem _ hx)
      have hcs : ∀ x ∈ cs, (1:ℤ) ≤ x.2 := fun x hx =>
        hc x (List.mem_cons_of_mem _ hx)
      have hmle1 := min_le_left cd cc
      have hmle2 := min_le_right cd cc
      have hmch := min_choice cd cc
      rw [settle]
      by_cases h1 : cd - min cd cc < 1
      · by_cases h2 : cc - min cd cc < 1
        · -- both residuals vanish: cd = cc = min
          have heq : cd = cc := by omega
          have hm : min cd cc = cd := by omega
          rw [if_pos h1, if_pos h2]
          obtain ⟨IH1, IH2⟩ := ih1 hds hcs (by omega) p
          constructor
          · simp only [fromSum, entrySum, List.map_cons, List.sum_cons]
              at IH1 ⊢
            rw [hm]
            by_cases hdp : d = p <;> simp only [if_pos, if_neg, hdp] <;>
              simp [IH1, fromSum, entrySum]
          · simp only [toSum, entrySum, List.map_cons, List.sum_cons]
              at IH2 ⊢
            rw [hm, heq]
            by_cases hcp : c = p <;> simp only [if_pos, if_neg, hcp] <;>
              simp [IH2, toSum, entrySum]
        · -- only the debtor advances: min = cd, creditor keeps cc - cd ≥ 1
          have hm : min cd cc = cd := by omega
          rw [if_pos h1, if_neg h2]
          have hcs2 : ∀ x ∈ (c, cc - min cd cc) :: cs, (1:ℤ) ≤ x.2 := by
            intro x hx
            rcases List.mem_cons.mp hx with rfl | hx
            · simp only []
              omega
            · exact hcs x hx
          obtain ⟨IH1, IH2⟩ := ih2 hds hcs2 (by
            simp only [List.map_cons, List.sum_cons]
            omega) p
          rw [hm] at IH1 IH2
          constructor
          · simp only [fromSum, entrySum, List.map_cons, List.sum_cons]
              at IH1 ⊢
            rw [hm]
            by_cases hdp : d = p <;> simp only [if_pos, if_neg, hdp] <;>
              simp [IH1, fromSum, entrySum]
          · simp only [toSum, entrySum, List.map_cons, List.sum_cons]
              at IH2 ⊢
            rw [hm]
            by_cases hcp : c = p <;> simp [hcp] at IH2 ⊢ <;> omega
      · -- only the creditor advances: min = cc, debtor keeps cd - cc ≥ 1
        have hm : min cd cc = cc := by omega
        rw [if_neg h1]
        have hds2 : ∀ x ∈ (d, cd - min cd cc) :: ds, (1:ℤ) ≤ x.2 := by
          intro x hx
          rcases List.mem_cons.mp hx with rfl | hx
          · simp only []
            omega
          · exact hds x hx
        obtain ⟨IH1, IH2⟩ := ih3 hds2 hcs (by
          simp only [List.map_cons, List.sum_cons]
          omega) p
        rw [hm] at IH1 IH2
        constructor
        · simp only [fromSum, entrySum, List.map_cons, List.sum_cons]
            at IH1 ⊢
          rw [hm]
          by_cases hdp : d = p <;> simp [hdp] at IH1 ⊢ <;> omega
        · simp only [toSum, entrySum, List.map_cons, List.sum_cons]
            at IH2 ⊢
          rw [hm]
          by_cases hcp : c = p <;> simp only [if_pos, if_neg, hcp] <;>
            simp [IH2, toSum, entrySum]

lemma insertDesc_perm : ∀ (l : List (String × ℤ)) (x : String × ℤ),
    (insertDesc x l).Perm (x :: l) := by
  intro l x
  induction l with
  | nil => exact List.Perm.refl _
  | cons y ys ih =>
      rw [insertDesc]
      by_cases h : y.2 ≤ x.2
      · rw [if_pos h]
      · rw [if_neg h]
        exact List.Perm.trans (List.Perm.cons y ih) (List.Perm.swap x y ys)

lemma sortDesc_perm : ∀ (l : List (String × ℤ)), (sortDesc l).Perm l := by
  intro l
  induction l with
  | nil => exact List.Perm.refl _
  | cons x xs ih =>
      rw [sortDesc]
      exact List.Perm.trans (insertDesc_perm _ x) (List.Perm.cons x ih)

lemma mem_sortDesc {x : String × ℤ} {l : List (String × ℤ)} :
    x ∈ sortDesc l ↔ x ∈ l :=
  (sortDesc_perm l).mem_iff

lemma length_sortDesc (l : List (String × ℤ)) :
    (sortDesc l).length = l.length :=
  (sortDesc_perm l).length_eq

lemma sortDesc_map_sum (l : List (String × ℤ)) (f : String × ℤ → ℤ) :
    ((sortDesc l).map f).sum = (l.map f).sum :=
  ((sortDesc_perm l).map f).sum_eq

lemma entrySum_sortDesc (p : String) (l : List (String × ℤ)) :
    entrySum p (sortDesc l) = entrySum p l := by
  unfold entrySum
  exact ((sortDesc_perm l).map fun x => if x.1 = p then x.2 else 0).sum_eq

/-- `getBal` of a map with distinct keys recovers a member's balance. -/
lemma getBal_eq_of_mem : ∀ (m : List (String × ℤ)),
    (m.map Prod.fst).Nodup → ∀ (p : String) (b : ℤ), (p, b) ∈ m →
    getBal m p = b := by
  intro m
  induction m with
  | nil => simp
  | cons q t ih =>
      intro hnd p b hmem
      simp only [List.map_cons, List.nodup_cons] at hnd
      rcases List.mem_cons.mp hmem with heq | hmem2
      · rw [← heq, getBal, if_pos rfl]
      · rw [getBal]
        have hne : q.1 ≠ p := by
          intro hq
          exact hnd.1 (hq ▸ (List.mem_map.mpr ⟨(p, b), hmem2, rfl⟩))
        rw [if_neg hne]
        exact ih hnd.2 p b hmem2

lemma entrySum_zero_of_not_mem (v : ℤ → ℤ) (f : String × ℤ → Bool)
    (p : String) : ∀ (l : List (String × ℤ)), p ∉ l.map Prod.fst →
    entrySum p ((l.filter f).map fun q => (q.1, v q.2)) = 0 := by
  intro l
  induction l with
  | nil => simp [entrySum]
  | cons q t ih =>
      intro hp
      simp only [List.map_cons, List.mem_cons, not_or] at hp
      rw [List.filter_cons]
      by_cases hf : f q
      · rw [if_pos hf]
        simp only [List.map_cons, entrySum, List.sum_cons]
        rw [if_neg (Ne.symm hp.1)]
        simp only [entrySum] at ih
        rw [ih hp.2]
        ring
      · rw [if_neg hf]
        exact ih hp.2

/-- In a map with distinct keys, the filtered-and-mapped entries belonging
to a participant sum to exactly their own transformed balance (or zero if
their balance fails the filter). -/
lemma entrySum_filter_map (v : ℤ → ℤ) (f : String × ℤ → Bool) :
    ∀ (m : List (String × ℤ)), (m.map Prod.fst).Nodup →
    ∀ (p : String) (b : ℤ), (p, b) ∈ m →
    entrySum p ((m.filter f).map fun q => (q.1, v q.2)) =
      if f (p, b) = true then v b else 0 := by
  intro m
  induction m with
  | nil => simp
  | cons q t ih =>
      intro hnd p b hmem
      simp only [List.map_cons, List.nodup_cons] at hnd
      rcases List.mem_cons.mp hmem with heq | hmem2
      · have hq : q = (p, b) := heq.symm
        subst hq
        have hnomem : p ∉ t.map Prod.fst := hnd.1
        rw [List.filter_cons]
        by_cases hf : f (p, b)
        · rw [if_pos hf, if_pos hf]
          have hz := entrySum_zero_of_not_mem v f p t hnomem
          simp only [entrySum, List.map_map] at hz
          simp [entrySum, hz]
        · rw [if_neg hf, if_neg (by simpa using hf)]
          exact entrySum_zero_of_not_mem v f p t hnomem
      · have hne : q.1 ≠ p := by
          intro hq
          exact hnd.1 (hq ▸ (List.mem_map.mpr ⟨(p, b), hmem2, rfl⟩))
        rw [List.filter_cons]
        by_cases hf : f q
        · rw [if_pos hf]
          simp only [List.map_cons, entrySum, List.sum_cons]
          rw [if_neg hne]
          have hr := ih hnd.2 p b hmem2
          simp only [entrySum] at hr
          rw [hr]
          ring
        · rw [if_neg hf]
          exact ih hnd.2 p b hmem2

lemma getBal_updateBal : ∀ (m : List (String × ℤ)) (k : String) (d : ℤ)
    (p : String), getBal (updateBal m k d) p =
      getBal m p + (if k = p then d else 0) := by
  intro m
  induction m with
  | nil =>
      intro k d p
      simp only [updateBal, getBal]
      by_cases h : k = p
      · simp [h]
      · simp [h]
  | cons q t ih =>
      intro k d p
      rw [updateBal]
      by_cases h : q.1 = k
      · subst h
        simp only [getBal]
        by_cases hp2 : q.1 = p
        · rw [if_pos hp2, if_pos hp2, if_pos hp2]
        · rw [if_neg hp2, if_neg hp2, if_neg hp2]
          ring
      · rw [if_neg h]
        simp only [getBal]
        by_cases hp2 : q.1 = p
        · rw [if_pos hp2, if_pos hp2]
          have hkp : k ≠ p := fun hkp => h (hp2.trans hkp.symm)
          rw [if_neg hkp]
          ring
        · rw [if_neg hp2, if_neg hp2]
          exact ih k d p

lemma getBal_applyInstructions : ∀ (ts : List (String × String × ℤ))
    (m : List (String × ℤ)) (p : String),
    getBal (applyInstructions m ts) p =
      getBal m p + fromSum p ts - toSum p ts := by
  intro ts
  induction ts with
  | nil =>
      intro m p
      simp [applyInstructions, fromSum, toSum]
  | cons t ts ih =>
      intro m p
      simp only [applyInstructions, List.foldl_cons] at ih ⊢
      rw [ih, getBal_updateBal, getBal_updateBal]
      simp only [fromSum, toSum, List.map_cons, List.sum_cons]
      by_cases h1 : t.1 = p <;> by_cases h2 : t.2.1 = p <;>
        simp [h1, h2] <;> ring

lemma settle_length : ∀ (ds cs : List (String × ℤ)),
    (settle ds cs).length ≤ ds.length + cs.length - 1 := by
  intro ds cs
  induction ds, cs using settle.induct with
  | case1 cs => simp [settle]
  | case2 d ds => simp [settle]
  | case3 d cd ds c cc cs ih1 ih2 ih3 =>
      rw [settle]
      by_cases h1 : cd - min cd cc < 1
      · by_cases h2 : cc - min cd cc < 1
        · rw [if_pos h1, if_pos h2]
          simp only [List.length_cons] at *
          omega
        · rw [if_pos h1, if_neg h2]
          simp only [List.length_cons] at *
          omega
      · rw [if_neg h1]
        simp only [List.length_cons] at *
        omega

/-! ## Claims about the debt simplifier -/

/-- C8: the number of instructions returned by `simplify_debts` is at most
`#debtors + #creditors - 1` (truncated subtraction: for a map with no
debtors and no creditors both sides are zero), where debtors have balance
below `-0.01` and creditors above `0.01`. -/
theorem claim8_instruction_bound (m : List (String × ℤ)) :
    (simplify_debts m).length ≤
      (m.filter fun q => q.2 < -1).length +
        (m.filter fun q => q.2 > 1).length - 1 := by
  unfold simplify_debts
  have h := settle_length
    (sortDesc ((m.filter fun q => q.2 < -1).map fun q => (q.1, |q.2|)))
    (sortDesc ((m.filter fun q => q.2 > 1).map fun q => (q.1, q.2)))
  rw [length_sortDesc, length_sortDesc, List.length_map, List.length_map] at h
  exact h

/-- C10: the settlement loop terminates because every iteration strictly
advances a pointer: with both lists nonempty, one step emits the minimum of
the two current residuals and recurses on lists whose combined length is
strictly smaller, and the settled amount drives at least one residual
below the one-cent advance threshold. -/
theorem claim10_loop_advances (d c : String × ℤ)
    (ds cs : List (String × ℤ)) :
    ∃ ds2 cs2, settle (d :: ds) (c :: cs) =
        (d.1, c.1, min d.2 c.2) :: settle ds2 cs2 ∧
      ds2.length + cs2.length < (d :: ds).length + (c :: cs).length ∧
      (d.2 - min d.2 c.2 < 1 ∨ c.2 - min d.2 c.2 < 1) := by
  obtain ⟨d1, d2⟩ := d
  obtain ⟨c1, c2⟩ := c
  rw [settle]
  by_cases h1 : d2 - min d2 c2 < 1
  · by_cases h2 : c2 - min d2 c2 < 1
    · refine ⟨ds, cs, by rw [if_pos h1, if_pos h2], ?_, Or.inl h1⟩
      simp only [List.length_cons]
      omega
    · refine ⟨ds, (c1, c2 - min d2 c2) :: cs,
        by rw [if_pos h1, if_neg h2], ?_, Or.inl h1⟩
      simp only [List.length_cons]
      omega
  · refine ⟨(d1, d2 - min d2 c2) :: ds, cs, by rw [if_neg h1], ?_, Or.inr ?_⟩
    · simp only [List.length_cons]
      omega
    · have hch := min_choice d2 c2
      have hle := min_le_left d2 c2
      omega

/-- C9: a participant whose balance is within the tolerance (absolute
value at most one cent, the endpoints included) never appears in any
instruction, and a map with no balance beyond the tolerance produces no
instructions at all. -/
theorem claim9_tolerance_excluded (m : List (String × ℤ)) :
    ((m.map Prod.fst).Nodup → ∀ (p : String) (b : ℤ), (p, b) ∈ m →
      |b| ≤ 1 → ∀ t ∈ simplify_debts m, t.1 ≠ p ∧ t.2.1 ≠ p) ∧
    ((∀ q ∈ m, |q.2| ≤ 1) → simplify_debts m = []) := by
  constructor
  · intro hnd p b hmem hb t ht
    unfold simplify_debts at ht
    obtain ⟨⟨x, hx, hx1⟩, ⟨y, hy, hy1⟩⟩ := settle_names _ _ t ht
    rw [mem_sortDesc] at hx hy
    constructor
    · intro heq
      obtain ⟨q, hq, hq2⟩ := List.mem_map.mp hx
      obtain ⟨hqm, hqf⟩ := List.mem_filter.mp hq
      have hqlt : q.2 < -1 := by simpa using hqf
      have hx1q : x.1 = q.1 := by rw [← hq2]
      have hq1 : q.1 = p := by rw [← hx1q, ← hx1, heq]
      have hpm : (p, q.2) ∈ m := by rw [← hq1]; exact hqm
      have h1 := getBal_eq_of_mem m hnd p b hmem
      have h2 := getBal_eq_of_mem m hnd p q.2 hpm
      rw [abs_le] at hb
      omega
    · intro heq
      obtain ⟨q, hq, hq2⟩ := List.mem_map.mp hy
      obtain ⟨hqm, hqf⟩ := List.mem_filter.mp hq
      have hqgt : q.2 > 1 := by simpa using hqf
      have hy1q : y.1 = q.1 := by rw [← hq2]
      have hq1 : q.1 = p := by rw [← hy1q, ← hy1, heq]
      have hpm : (p, q.2) ∈ m := by rw [← hq1]; exact hqm
      have h1 := getBal_eq_of_mem m hnd p b hmem
      have h2 := getBal_eq_of_mem m hnd p q.2 hpm
      rw [abs_le] at hb
      omega
  · intro hall
    unfold simplify_debts
    have h1 : m.filter (fun q => q.2 < -1) = [] := by
      rw [List.filter_eq_nil_iff]
      intro q hq
      have hq2 := hall q hq
      rw [abs_le] at hq2
      simp only [decide_eq_true_eq]
      omega
    have h2 : m.filter (fun q => q.2 > 1) = [] := by
      rw [List.filter_eq_nil_iff]
      intro q hq
      have hq2 := hall q hq
      rw [abs_le] at hq2
      simp only [decide_eq_true_eq]
      omega
    rw [h1, h2]
    simp only [List.map_nil]
    rw [sortDesc, settle]

/-- Witness for C9: with balances `a: 0.01`, `c: 5.00`, `d: -5.00` the
within-tolerance participant `a` appears in no instruction, and an
all-within-tolerance map yields no instructions. -/
theorem claim9_witness :
    (∀ t ∈ simplify_debts [("a", 1), ("c", 500), ("d", -500)],
      t.1 ≠ "a" ∧ t.2.1 ≠ "a") ∧
    simplify_debts [("a", 1), ("b", -1)] = [] :=
  ⟨(claim9_tolerance_excluded [("a", 1), ("c", 500), ("d", -500)]).1
      (by decide) "a" 1 (by decide) (by decide),
    (claim9_tolerance_excluded [("a", 1), ("b", -1)]).2 (by decide)⟩

/-- C3 is refuted at a concrete input: for the balance map
`{a: -1.00, b: 0.50}` the single emitted instruction involves `a`, yet
applying it leaves `a` at `-0.50`, far outside the tolerance — the loop
stops when the creditors run out, leaving the current debtor unsettled. -/
theorem claim3_counterexample :
    (∃ t ∈ simplify_debts [("a", -100), ("b", 50)],
      t.1 = "a" ∨ t.2.1 = "a") ∧
    1 < |getBal (applyInstructions [("a", -100), ("b", 50)]
      (simplify_debts [("a", -100), ("b", 50)])) "a"| := by
  have hT : simplify_debts [("a", -100), ("b", 50)] = [("a", "b", 50)] := by
    norm_num [simplify_debts, sortDesc, insertDesc, settle]
  rw [hT]
  refine ⟨⟨("a", "b", 50), by simp, Or.inl rfl⟩, ?_⟩
  norm_num [applyInstructions, updateBal, getBal]

/-- C3 amended: for a balance map with distinct participants in which the
total debtor magnitude beyond tolerance equals the total creditor amount
beyond tolerance, applying all emitted instructions (add the amount to the
`from` balance, subtract it from the `to` balance) leaves every balance
involved in at least one instruction within the tolerance `0.01` of zero
(in fact exactly zero). -/
theorem claim3_amended (m : List (String × ℤ))
    (hnd : (m.map Prod.fst).Nodup)
    (hbal : ((m.filter fun q => q.2 < -1).map fun q => |q.2|).sum =
      ((m.filter fun q => q.2 > 1).map fun q => q.2).sum)
    (p : String) (t : String × String × ℤ)
    (ht : t ∈ simplify_debts m) (hp : t.1 = p ∨ t.2.1 = p) :
    |getBal (applyInstructions m (simplify_debts m)) p| ≤ 1 := by
  have hds1 : ∀ x ∈ sortDesc ((m.filter fun q => q.2 < -1).map
      fun q => (q.1, |q.2|)), (1:ℤ) ≤ x.2 := by
    intro x hx
    rw [mem_sortDesc] at hx
    obtain ⟨q, hq, hq2⟩ := List.mem_map.mp hx
    have hlt : q.2 < -1 := by simpa using (List.mem_filter.mp hq).2
    have habs : |q.2| = -q.2 := abs_of_neg (by omega)
    rw [← hq2]
    show (1:ℤ) ≤ |q.2|
    omega
  have hcs1 : ∀ x ∈ sortDesc ((m.filter fun q => q.2 > 1).map
      fun q => (q.1, q.2)), (1:ℤ) ≤ x.2 := by
    intro x hx
    rw [mem_sortDesc] at hx
    obtain ⟨q, hq, hq2⟩ := List.mem_map.mp hx
    have hgt : q.2 > 1 := by simpa using (List.mem_filter.mp hq).2
    rw [← hq2]
    show (1:ℤ) ≤ q.2
    omega
  have hsum : ((sortDesc ((m.filter fun q => q.2 < -1).map
        fun q => (q.1, |q.2|))).map fun x => x.2).sum =
      ((sortDesc ((m.filter fun q => q.2 > 1).map
        fun q => (q.1, q.2))).map fun x => x.2).sum := by
    rw [sortDesc_map_sum, sortDesc_map_sum, List.map_map, List.map_map]
    simpa [Function.comp] using hbal
  have hexh := settle_exhaust _ _ hds1 hcs1 hsum p
  unfold simplify_debts at ht ⊢
  rw [getBal_applyInstructions, (hexh.1 : _ = _), (hexh.2 : _ = _),
    entrySum_sortDesc, entrySum_sortDesc]
  obtain ⟨⟨x, hx, hx1⟩, ⟨y, hy, hy1⟩⟩ := settle_names _ _ t ht
  rw [mem_sortDesc] at hx hy
  rcases hp with hp | hp
  · obtain ⟨q, hq, hq2⟩ := List.mem_map.mp hx
    obtain ⟨hqm, hqf⟩ := List.mem_filter.mp hq
    have hqlt : q.2 < -1 := by simpa using hqf
    have hx1q : x.1 = q.1 := by rw [← hq2]
    have hq1 : q.1 = p := by rw [← hx1q, ← hx1, hp]
    have hpm : (p, q.2) ∈ m := by rw [← hq1]; exact hqm
    have hgb : getBal m p = q.2 := getBal_eq_of_mem m hnd p q.2 hpm
    have he1 := entrySum_filter_map (fun z => |z|) (fun q => q.2 < -1)
      m hnd p q.2 hpm
    have he2 := entrySum_filter_map (fun z => z) (fun q => q.2 > 1)
      m hnd p q.2 hpm
    rw [he1, he2, hgb, if_pos (by simpa using hqlt),
      if_neg (by simp; omega)]
    have habs : |q.2| = -q.2 := abs_of_neg (by omega)
    show |q.2 + |q.2| - 0| ≤ 1
    rw [habs, show q.2 + -q.2 - 0 = 0 from by ring]
    norm_num
  · obtain ⟨q, hq, hq2⟩ := List.mem_map.mp hy
    obtain ⟨hqm, hqf⟩ := List.mem_filter.mp hq
    have hqgt : q.2 > 1 := by simpa using hqf
    have hy1q : y.1 = q.1 := by rw [← hq2]
    have hq1 : q.1 = p := by rw [← hy1q, ← hy1, hp]
    have hpm : (p, q.2) ∈ m := by rw [← hq1]; exact hqm
    have hgb : getBal m p = q.2 := getBal_eq_of_mem m hnd p q.2 hpm
    have he1 := entrySum_filter_map (fun z => |z|) (fun q => q.2 < -1)
      m hnd p q.2 hpm
    have he2 := entrySum_filter_map (fun z => z) (fun q => q.2 > 1)
      m hnd p q.2 hpm
    rw [he1, he2, hgb, if_neg (by simp; omega), if_pos (by simpa using hqgt)]
    show |q.2 + 0 - q.2| ≤ 1
    rw [show q.2 + 0 - q.2 = 0 from by ring]
    norm_num

/-- Witness for C3 (amended) on the balanced map `{a: -2.00, b: 2.00}`. -/
theorem claim3_witness :
    |getBal (applyInstructions [("a", -200), ("b", 200)]
      (simplify_debts [("a", -200), ("b", 200)])) "a"| ≤ 1 :=
  claim3_amended [("a", -200), ("b", 200)] (by decide) (by decide) "a"
    ("a", "b", 200)
    (by norm_num [simplify_debts, sortDesc, insertDesc, settle])
    (Or.inl rfl)
